import Mathlib

/-!
# Verification of the `Value` / `WitValue` encoding core of `wasm-rpc`

This development embeds the bidirectional conversion between the recursive
in-memory `Value` tree and its flattened arena-style encoding `WitValue`
(a sequence of `WitNode`s linked by integer indices), as implemented in
`src/wasm-rpc/src/lib.rs` (`build_wit_value`, `build_tree`, and the two
`From` impls), together with the arena builder it drives.

Modelling conventions:
* Rust machine integers are carried opaquely (no arithmetic is ever
  performed on them), so unsigned payloads are embedded as `Nat` and
  signed payloads as `Int`; `f32`/`f64` payloads are embedded as their
  raw bit patterns (`Nat`), since the conversion code only moves them
  and equality on bit patterns is the bit-pattern-preservation property.
* `NodeIndex` is Rust `i32`; it is embedded as `Int` so that the
  builder's `-1` sentinel placeholder is representable.
* A Rust panic (a failed `assert!`, an out-of-range slice index, or a
  builder-contract violation) has no value to return, so every fallible
  embedded function returns `Option`, with `none` standing for the
  panic.  The decoder additionally takes a fuel argument bounding its
  recursion depth; `none` on fuel exhaustion stands for the unbounded
  recursion the Rust code would perform on an encoding with
  non-forward references.
-/


/-- The flattened node type (`WitNode` in the generated bindings), exactly the
shape consumed by `build_tree` in `src/wasm-rpc/src/lib.rs`: scalar payloads
inline, containers referencing other nodes by index.  Rust's
`ResultValue(Result<Option<NodeIndex>, Option<NodeIndex>>)` is embedded as an
`isOk` flag (`true` for `Ok`, `false` for `Err`) plus the arm's optional child
index. -/
inductive WitNode where
  | RecordValue (fieldIndices : List Int)
  | VariantValue (caseIdx : Nat) (inner : Option Int)
  | EnumValue (value : Nat)
  | FlagsValue (values : List Bool)
  | TupleValue (indices : List Int)
  | ListValue (indices : List Int)
  | OptionValue (inner : Option Int)
  | ResultValue (isOk : Bool) (inner : Option Int)
  | PrimU8 (v : Nat)
  | PrimU16 (v : Nat)
  | PrimU32 (v : Nat)
  | PrimU64 (v : Nat)
  | PrimS8 (v : Int)
  | PrimS16 (v : Int)
  | PrimS32 (v : Int)
  | PrimS64 (v : Int)
  | PrimFloat32 (bits : Nat)
  | PrimFloat64 (bits : Nat)
  | PrimChar (c : Char)
  | PrimBool (b : Bool)
  | PrimString (s : String)
deriving DecidableEq

/-- `WitValue`: an owned ordered sequence of `WitNode`s (the `nodes` field of
the generated `WitValue` record). -/
structure WitValue where
  nodes : List WitNode
deriving DecidableEq

/-- The recursive in-memory value tree, from `enum Value` in
`src/wasm-rpc/src/lib.rs` (the richer of the two near-duplicate definitions:
variant payloads and result-arm payloads are optional).  Rust
`Result(Result<Option<Box<Value>>, Option<Box<Value>>>)` is embedded as an
`isOk` flag plus the selected arm's optional payload; float payloads are raw
bit patterns. -/
inductive Value where
  | bool (b : Bool)
  | u8 (v : Nat)
  | u16 (v : Nat)
  | u32 (v : Nat)
  | u64 (v : Nat)
  | s8 (v : Int)
  | s16 (v : Int)
  | s32 (v : Int)
  | s64 (v : Int)
  | f32 (bits : Nat)
  | f64 (bits : Nat)
  | char (c : Char)
  | string (s : String)
  | list (values : List Value)
  | tuple (values : List Value)
  | record (fields : List Value)
  | variant (caseIdx : Nat) (caseValue : Option Value)
  | enum (v : Nat)
  | flags (values : List Bool)
  | option (v : Option Value)
  | result (isOk : Bool) (v : Option Value)

/-! ## The builder (arena + backpatch)

The builder module (`builder.rs`) is declared (`mod builder;`) and driven by
`build_wit_value` but its body is not among the given sources, so the
operations below are modelled from the spec, §4.1: an append-only arena of
nodes plus a record of which appended container nodes are still *reserved*
(their child indices not yet installed).  Reserved container nodes carry the
spec's sentinel placeholder (`-1`, an out-of-range negative index) until they
are finished. -/

/-- Modelled from the spec: install the ordered child indices of a reserved
sequence container (list/tuple/record), keeping its kind; any other node kind
cannot be finished with a sequence of children. -/
def setSeqChildren : WitNode → List Int → Option WitNode
  | .ListValue _, items => some (.ListValue items)
  | .TupleValue _, items => some (.TupleValue items)
  | .RecordValue _, items => some (.RecordValue items)
  | _, _ => none

/-- Modelled from the spec: install the single child index of a reserved
variant/option/result container, keeping its kind (and case index / arm),
replacing the sentinel; any other node kind takes no single child. -/
def setSingleChild : WitNode → Int → Option WitNode
  | .VariantValue c _, child => some (.VariantValue c (some child))
  | .OptionValue _, child => some (.OptionValue (some child))
  | .ResultValue isOk _, child => some (.ResultValue isOk (some child))
  | _, _ => none

/-- Modelled from the spec: the mutable builder state — the arena of nodes
appended so far, plus the positions of reserved containers that have not yet
been finished.  (`builder.rs` is not among the given sources.) -/
structure WitValueBuilder where
  nodes : List WitNode
  unfinished : List Int
deriving DecidableEq

namespace WitValueBuilder

/-- Modelled from the spec: a fresh, empty builder. -/
def new : WitValueBuilder := ⟨[], []⟩

/-- Modelled from the spec: append a fully-formed node (scalar or
unit-container); returns its position.  Always succeeds. -/
def addNode (b : WitValueBuilder) (n : WitNode) : Int × WitValueBuilder :=
  ((b.nodes.length : Int), ⟨b.nodes ++ [n], b.unfinished⟩)

/-- Modelled from the spec: append a container node in *reserved* state (its
child indices are sentinels / empty and will be installed by a later finish
operation); the position is recorded as unfinished. -/
def addReserved (b : WitValueBuilder) (n : WitNode) : Int × WitValueBuilder :=
  ((b.nodes.length : Int),
    ⟨b.nodes ++ [n], b.unfinished ++ [(b.nodes.length : Int)]⟩)

/-- Modelled from the spec: `add_bool`. -/
def add_bool (b : WitValueBuilder) (v : Bool) : Int × WitValueBuilder :=
  b.addNode (.PrimBool v)

/-- Modelled from the spec: `add_u8`. -/
def add_u8 (b : WitValueBuilder) (v : Nat) : Int × WitValueBuilder :=
  b.addNode (.PrimU8 v)

/-- Modelled from the spec: `add_u16`. -/
def add_u16 (b : WitValueBuilder) (v : Nat) : Int × WitValueBuilder :=
  b.addNode (.PrimU16 v)

/-- Modelled from the spec: `add_u32`. -/
def add_u32 (b : WitValueBuilder) (v : Nat) : Int × WitValueBuilder :=
  b.addNode (.PrimU32 v)

/-- Modelled from the spec: `add_u64`. -/
def add_u64 (b : WitValueBuilder) (v : Nat) : Int × WitValueBuilder :=
  b.addNode (.PrimU64 v)

/-- Modelled from the spec: `add_s8`. -/
def add_s8 (b : WitValueBuilder) (v : Int) : Int × WitValueBuilder :=
  b.addNode (.PrimS8 v)

/-- Modelled from the spec: `add_s16`. -/
def add_s16 (b : WitValueBuilder) (v : Int) : Int × WitValueBuilder :=
  b.addNode (.PrimS16 v)

/-- Modelled from the spec: `add_s32`. -/
def add_s32 (b : WitValueBuilder) (v : Int) : Int × WitValueBuilder :=
  b.addNode (.PrimS32 v)

/-- Modelled from the spec: `add_s64`. -/
def add_s64 (b : WitValueBuilder) (v : Int) : Int × WitValueBuilder :=
  b.addNode (.PrimS64 v)

/-- Modelled from the spec: `add_f32` (payload carried as bit pattern). -/
def add_f32 (b : WitValueBuilder) (bits : Nat) : Int × WitValueBuilder :=
  b.addNode (.PrimFloat32 bits)

/-- Modelled from the spec: `add_f64` (payload carried as bit pattern). -/
def add_f64 (b : WitValueBuilder) (bits : Nat) : Int × WitValueBuilder :=
  b.addNode (.PrimFloat64 bits)

/-- Modelled from the spec: `add_char`. -/
def add_char (b : WitValueBuilder) (c : Char) : Int × WitValueBuilder :=
  b.addNode (.PrimChar c)

/-- Modelled from the spec: `add_string`. -/
def add_string (b : WitValueBuilder) (s : String) : Int × WitValueBuilder :=
  b.addNode (.PrimString s)

/-- Modelled from the spec: `add_list` reserves a list container. -/
def add_list (b : WitValueBuilder) : Int × WitValueBuilder :=
  b.addReserved (.ListValue [])

/-- Modelled from the spec: `add_tuple` reserves a tuple container. -/
def add_tuple (b : WitValueBuilder) : Int × WitValueBuilder :=
  b.addReserved (.TupleValue [])

/-- Modelled from the spec: `add_record` reserves a record container. -/
def add_record (b : WitValueBuilder) : Int × WitValueBuilder :=
  b.addReserved (.RecordValue [])

/-- Modelled from the spec: `add_variant` reserves a variant-with-payload node
carrying the case index and the caller-supplied sentinel placeholder (the
encoder passes `-1`) as its child index. -/
def add_variant (b : WitValueBuilder) (caseIdx : Nat) (sentinel : Int) :
    Int × WitValueBuilder :=
  b.addReserved (.VariantValue caseIdx (some sentinel))

/-- Modelled from the spec: `add_variant_unit` appends a fully-formed
payload-less variant node. -/
def add_variant_unit (b : WitValueBuilder) (caseIdx : Nat) :
    Int × WitValueBuilder :=
  b.addNode (.VariantValue caseIdx none)

/-- Modelled from the spec: `add_enum_value`. -/
def add_enum_value (b : WitValueBuilder) (v : Nat) : Int × WitValueBuilder :=
  b.addNode (.EnumValue v)

/-- Modelled from the spec: `add_flags` (the boolean sequence is copied
verbatim; no per-flag nodes). -/
def add_flags (b : WitValueBuilder) (vs : List Bool) : Int × WitValueBuilder :=
  b.addNode (.FlagsValue vs)

/-- Modelled from the spec: `add_option_some` reserves a present-option node
(sentinel child). -/
def add_option_some (b : WitValueBuilder) : Int × WitValueBuilder :=
  b.addReserved (.OptionValue (some (-1)))

/-- Modelled from the spec: `add_option_none` appends a fully-formed absent
option node. -/
def add_option_none (b : WitValueBuilder) : Int × WitValueBuilder :=
  b.addNode (.OptionValue none)

/-- Modelled from the spec: `add_result_ok` reserves a success-arm result node
with a present payload (sentinel child). -/
def add_result_ok (b : WitValueBuilder) : Int × WitValueBuilder :=
  b.addReserved (.ResultValue true (some (-1)))

/-- Modelled from the spec: `add_result_ok_unit` appends a fully-formed
unit success-arm result node. -/
def add_result_ok_unit (b : WitValueBuilder) : Int × WitValueBuilder :=
  b.addNode (.ResultValue true none)

/-- Modelled from the spec: `add_result_err` reserves a failure-arm result
node with a present payload (sentinel child). -/
def add_result_err (b : WitValueBuilder) : Int × WitValueBuilder :=
  b.addReserved (.ResultValue false (some (-1)))

/-- Modelled from the spec: `add_result_err_unit` appends a fully-formed
unit failure-arm result node. -/
def add_result_err_unit (b : WitValueBuilder) : Int × WitValueBuilder :=
  b.addNode (.ResultValue false none)

/-- Modelled from the spec: `finish_seq` installs the ordered child indices of
a previously *reserved*, not yet finished list/tuple/record node.  Finishing a
position that is not an unfinished reservation, or whose node is not a
sequence container, is a builder-contract violation and fails fast (`none`). -/
def finish_seq (b : WitValueBuilder) (items : List Int) (target : Int) :
    Option WitValueBuilder :=
  if 0 ≤ target ∧ target ∈ b.unfinished then
    match b.nodes[target.toNat]? with
    | some n =>
      match setSeqChildren n items with
      | some n2 => some ⟨b.nodes.set target.toNat n2, b.unfinished.erase target⟩
      | none => none
    | none => none
  else none

/-- Modelled from the spec: `finish_child` installs the single child index of
a previously *reserved*, not yet finished variant/option/result node,
replacing the sentinel.  Finishing a position that is not an unfinished
reservation, or whose node kind takes no single child, fails fast (`none`). -/
def finish_child (b : WitValueBuilder) (child : Int) (target : Int) :
    Option WitValueBuilder :=
  if 0 ≤ target ∧ target ∈ b.unfinished then
    match b.nodes[target.toNat]? with
    | some n =>
      match setSingleChild n child with
      | some n2 => some ⟨b.nodes.set target.toNat n2, b.unfinished.erase target⟩
      | none => none
    | none => none
  else none

/-- Modelled from the spec: `build` consumes the builder and returns the
completed sequence; it is only valid once every reserved container has been
finished (otherwise: contract violation, `none`). -/
def build (b : WitValueBuilder) : Option WitValue :=
  if b.unfinished = [] then some ⟨b.nodes⟩ else none

end WitValueBuilder

/-! ## Encoder (Value → WitValue), from `build_wit_value` -/

mutual

/-- Embedding of `build_wit_value` (`src/wasm-rpc/src/lib.rs`, lines 99-186):
the recursive depth-first encoder driving the builder.  The `for` loops that
encode the elements of a list/tuple/record in order, collecting the returned
indices, are factored into `buildItems`.  The result is `none` exactly when a
builder operation hits a contract violation (the Rust code would panic
there). -/
def build_wit_value : Value → WitValueBuilder → Option (Int × WitValueBuilder)
  | .bool v, b => some (b.add_bool v)
  | .u8 v, b => some (b.add_u8 v)
  | .u16 v, b => some (b.add_u16 v)
  | .u32 v, b => some (b.add_u32 v)
  | .u64 v, b => some (b.add_u64 v)
  | .s8 v, b => some (b.add_s8 v)
  | .s16 v, b => some (b.add_s16 v)
  | .s32 v, b => some (b.add_s32 v)
  | .s64 v, b => some (b.add_s64 v)
  | .f32 bits, b => some (b.add_f32 bits)
  | .f64 bits, b => some (b.add_f64 bits)
  | .char c, b => some (b.add_char c)
  | .string s, b => some (b.add_string s)
  | .list values, b =>
    match b.add_list with
    | (list_idx, b1) =>
      match buildItems values b1 with
      | none => none
      | some (items, b2) =>
        match b2.finish_seq items list_idx with
        | none => none
        | some b3 => some (list_idx, b3)
  | .tuple values, b =>
    match b.add_tuple with
    | (tuple_idx, b1) =>
      match buildItems values b1 with
      | none => none
      | some (items, b2) =>
        match b2.finish_seq items tuple_idx with
        | none => none
        | some b3 => some (tuple_idx, b3)
  | .record fields, b =>
    match b.add_record with
    | (record_idx, b1) =>
      match buildItems fields b1 with
      | none => none
      | some (items, b2) =>
        match b2.finish_seq items record_idx with
        | none => none
        | some b3 => some (record_idx, b3)
  | .variant caseIdx (some caseValue), b =>
    match b.add_variant caseIdx (-1) with
    | (variant_idx, b1) =>
      match build_wit_value caseValue b1 with
      | none => none
      | some (inner_idx, b2) =>
        match b2.finish_child inner_idx variant_idx with
        | none => none
        | some b3 => some (variant_idx, b3)
  | .variant caseIdx none, b => some (b.add_variant_unit caseIdx)
  | .enum v, b => some (b.add_enum_value v)
  | .flags values, b => some (b.add_flags values)
  | .option (some value), b =>
    match b.add_option_some with
    | (option_idx, b1) =>
      match build_wit_value value b1 with
      | none => none
      | some (inner_idx, b2) =>
        match b2.finish_child inner_idx option_idx with
        | none => none
        | some b3 => some (option_idx, b3)
  | .option none, b => some (b.add_option_none)
  | .result true (some ok), b =>
    match b.add_result_ok with
    | (result_idx, b1) =>
      match build_wit_value ok b1 with
      | none => none
      | some (inner_idx, b2) =>
        match b2.finish_child inner_idx result_idx with
        | none => none
        | some b3 => some (result_idx, b3)
  | .result true none, b => some (b.add_result_ok_unit)
  | .result false (some err), b =>
    match b.add_result_err with
    | (result_idx, b1) =>
      match build_wit_value err b1 with
      | none => none
      | some (inner_idx, b2) =>
        match b2.finish_child inner_idx result_idx with
        | none => none
        | some b3 => some (result_idx, b3)
  | .result false none, b => some (b.add_result_err_unit)

/-- The element loop of `build_wit_value` for list/tuple/record: encode each
element in order, threading the builder and collecting the returned node
indices. -/
def buildItems : List Value → WitValueBuilder → Option (List Int × WitValueBuilder)
  | [], b => some ([], b)
  | v :: vs, b =>
    match build_wit_value v b with
    | none => none
    | some (i, b2) =>
      match buildItems vs b2 with
      | none => none
      | some (is, b3) => some (i :: is, b3)

end

/-- Embedding of `impl From<Value> for WitValue` (lines 91-97): run the
encoder on a fresh builder and consume the builder.  `none` models a panic
(builder-contract violation); the round-trip development proves it never
occurs. -/
def valueToWitValue (v : Value) : Option WitValue :=
  match build_wit_value v WitValueBuilder.new with
  | none => none
  | some (_, b) => b.build

/-! ## Decoder (WitValue → Value), from `build_tree` -/

/-- `mapOpt f l` is the `for` loop of `build_tree` over a container's child
indices: apply `f` to each element in order, failing as soon as `f` does. -/
def mapOpt (f : α → Option β) : List α → Option (List β)
  | [] => some []
  | a :: as =>
    match f a with
    | none => none
    | some b =>
      match mapOpt f as with
      | none => none
      | some bs => some (b :: bs)

/-- The dereference `&nodes[*index as usize]` performed by `build_tree` for
each child index: a Rust `i32`-to-`usize` cast followed by slice indexing,
which panics (`none`) when the index is negative or not below the sequence
length. -/
def deref (nodes : List WitNode) (i : Int) : Option WitNode :=
  if 0 ≤ i then nodes[i.toNat]? else none

/-- Embedding of `build_tree` (`src/wasm-rpc/src/lib.rs`, lines 195-263),
reformulated on the node's position: dereference the node at `i` (panicking,
`none`, when out of range — in the Rust code this dereference happens at the
caller just before recursing) and rebuild the corresponding `Value`,
recursively decoding each referenced child index in order.  The `fuel`
argument bounds the recursion depth; `none` on exhaustion models the
unbounded recursion the Rust code performs on a node sequence whose
references do not strictly advance. -/
def build_tree (nodes : List WitNode) : Nat → Int → Option Value
  | 0, _ => none
  | fuel + 1, i =>
    match deref nodes i with
    | none => none
    | some n =>
      match n with
      | .RecordValue fieldIndices =>
        (mapOpt (fun j => build_tree nodes fuel j) fieldIndices).map Value.record
      | .VariantValue caseIdx (some innerIdx) =>
        (build_tree nodes fuel innerIdx).map (fun v => Value.variant caseIdx (some v))
      | .VariantValue caseIdx none => some (.variant caseIdx none)
      | .EnumValue v => some (.enum v)
      | .FlagsValue values => some (.flags values)
      | .TupleValue indices =>
        (mapOpt (fun j => build_tree nodes fuel j) indices).map Value.tuple
      | .ListValue indices =>
        (mapOpt (fun j => build_tree nodes fuel j) indices).map Value.list
      | .OptionValue (some index) =>
        (build_tree nodes fuel index).map (fun v => Value.option (some v))
      | .OptionValue none => some (.option none)
      | .ResultValue true (some index) =>
        (build_tree nodes fuel index).map (fun v => Value.result true (some v))
      | .ResultValue true none => some (.result true none)
      | .ResultValue false (some index) =>
        (build_tree nodes fuel index).map (fun v => Value.result false (some v))
      | .ResultValue false none => some (.result false none)
      | .PrimU8 v => some (.u8 v)
      | .PrimU16 v => some (.u16 v)
      | .PrimU32 v => some (.u32 v)
      | .PrimU64 v => some (.u64 v)
      | .PrimS8 v => some (.s8 v)
      | .PrimS16 v => some (.s16 v)
      | .PrimS32 v => some (.s32 v)
      | .PrimS64 v => some (.s64 v)
      | .PrimFloat32 bits => some (.f32 bits)
      | .PrimFloat64 bits => some (.f64 bits)
      | .PrimChar c => some (.char c)
      | .PrimBool b => some (.bool b)
      | .PrimString s => some (.string s)

/-- Embedding of `impl From<WitValue> for Value` (lines 188-193):
`assert!(!value.nodes.is_empty())` — a panic (`none`) on the empty sequence —
then decode starting at position `0`.  The Rust recursion carries no fuel;
`nodes.length` is sufficient fuel for every sequence whose references
strictly advance (proved below), which includes every encoder output. -/
def witValueToValue (w : WitValue) : Option Value :=
  if w.nodes.isEmpty then none
  else build_tree w.nodes w.nodes.length 0

/-! ## Structural notions used by the spec's invariants -/

/-- The child indices carried by a node (the indices `build_tree`
dereferences when visiting it). -/
def childIndices : WitNode → List Int
  | .RecordValue fieldIndices => fieldIndices
  | .VariantValue _ (some innerIdx) => [innerIdx]
  | .TupleValue indices => indices
  | .ListValue indices => indices
  | .OptionValue (some index) => [index]
  | .ResultValue _ (some index) => [index]
  | _ => []

/-- The forward-reference invariant of §3: every child index carried by the
node at position `i` is a valid position in the same sequence and is strictly
greater than `i`. -/
def validForward (nodes : List WitNode) : Bool :=
  nodes.enum.all fun p =>
    (childIndices p.2).all fun j =>
      decide ((p.1 : Int) < j) && decide (j < (nodes.length : Int))

/-- Kind-level correspondence between a `Value` and a `WitNode`: the node is
"the top-level node of the value's kind" (same constructor, including the
present/absent distinction of optional payloads and the result arm). -/
def sameKind : Value → WitNode → Bool
  | .bool _, .PrimBool _ => true
  | .u8 _, .PrimU8 _ => true
  | .u16 _, .PrimU16 _ => true
  | .u32 _, .PrimU32 _ => true
  | .u64 _, .PrimU64 _ => true
  | .s8 _, .PrimS8 _ => true
  | .s16 _, .PrimS16 _ => true
  | .s32 _, .PrimS32 _ => true
  | .s64 _, .PrimS64 _ => true
  | .f32 _, .PrimFloat32 _ => true
  | .f64 _, .PrimFloat64 _ => true
  | .char _, .PrimChar _ => true
  | .string _, .PrimString _ => true
  | .list _, .ListValue _ => true
  | .tuple _, .TupleValue _ => true
  | .record _, .RecordValue _ => true
  | .variant _ (some _), .VariantValue _ (some _) => true
  | .variant _ none, .VariantValue _ none => true
  | .enum _, .EnumValue _ => true
  | .flags _, .FlagsValue _ => true
  | .option (some _), .OptionValue (some _) => true
  | .option none, .OptionValue none => true
  | .result a (some _), .ResultValue b (some _) => a == b
  | .result a none, .ResultValue b none => a == b
  | _, _ => false

/-! ## Proof infrastructure -/

/-- Every unfinished (reserved) position of the builder refers into its
arena.  This holds for every state the encoder ever produces and is what
makes a fresh reservation distinct from all pending ones. -/
def UnfinishedBelow (b : WitValueBuilder) : Prop :=
  ∀ j ∈ b.unfinished, j < (b.nodes.length : Int)

/-- All child indices of the block `tail`, laid out starting at position
`base` of the full node sequence, point strictly forward within the block:
the node at block offset `k` only references positions in
`(base + k, base + tail.length)`. -/
def ChildBounds (base : Nat) (tail : List WitNode) : Prop :=
  ∀ k n, tail[k]? = some n → ∀ j ∈ childIndices n,
    ((base + k : Nat) : Int) < j ∧ j < ((base + tail.length : Nat) : Int)

/-- The block `tail`, laid out starting at position `base` of the full node
sequence, decodes to `v` at its root: for any surrounding context of the
right length and any fuel at least the block length, `build_tree` at
position `base` returns `v`. -/
def DecodesTo (tail : List WitNode) (base : Nat) (v : Value) : Prop :=
  ∀ (pre post : List WitNode) (fuel : Nat), pre.length = base → tail.length ≤ fuel →
    build_tree (pre ++ tail ++ post) fuel ((base : Nat) : Int) = some v

/-- Master correctness statement for one encoder call on `v` in state `b`:
the call succeeds, returns the position of the freshly appended block root,
extends the arena by a non-empty block whose head has `v`'s kind, leaves the
pending reservations exactly as they were, and the new block both respects
the forward-reference discipline and decodes back to `v`. -/
def EncOk (v : Value) (b : WitValueBuilder) : Prop :=
  ∃ hd tl,
    build_wit_value v b =
      some ((b.nodes.length : Int), ⟨b.nodes ++ hd :: tl, b.unfinished⟩) ∧
    sameKind v hd = true ∧
    ChildBounds b.nodes.length (hd :: tl) ∧
    DecodesTo (hd :: tl) b.nodes.length v

/-- Master correctness statement for the element loop on `vs` in state `b`:
it succeeds, appends one block per element, returns the block root positions
in order, and those positions decode back to the elements in order. -/
def EncItemsOk (vs : List Value) (b : WitValueBuilder) : Prop :=
  ∃ T idxs,
    buildItems vs b = some (idxs, ⟨b.nodes ++ T, b.unfinished⟩) ∧
    ChildBounds b.nodes.length T ∧
    (∀ j ∈ idxs, (b.nodes.length : Int) ≤ j ∧ j < ((b.nodes.length + T.length : Nat) : Int)) ∧
    (∀ (pre post : List WitNode) (fuel : Nat), pre.length = b.nodes.length →
      T.length ≤ fuel →
      mapOpt (fun j => build_tree (pre ++ T ++ post) fuel j) idxs = some vs)

/-! ### List bookkeeping lemmas -/

theorem getElem?_middle {α : Type} (pre l post : List α) (k : Nat) (hk : k < l.length) :
    (pre ++ l ++ post)[pre.length + k]? = l[k]? := by
  rw [List.append_assoc, List.getElem?_append_right (by omega),
    List.getElem?_append_left (by omega)]
  congr 1
  omega

theorem deref_some (nodes : List WitNode) (k : Nat) (x : WitNode)
    (h : nodes[k]? = some x) : deref nodes ((k : Nat) : Int) = some x := by
  simp [deref, h]

theorem deref_middle (pre l post : List WitNode) (k : Nat) (x : WitNode)
    (hk : k < l.length) (hx : l[k]? = some x) :
    deref (pre ++ l ++ post) ((pre.length + k : Nat) : Int) = some x := by
  apply deref_some
  rw [getElem?_middle pre l post k hk, hx]

theorem deref_head (pre : List WitNode) (x : WitNode) (rest post : List WitNode) :
    deref (pre ++ (x :: rest) ++ post) ((pre.length : Nat) : Int) = some x := by
  have h := deref_middle pre (x :: rest) post 0 x (by simp) (by simp)
  simpa using h

theorem set_middle {α : Type} (pre : List α) (x y : α) (post : List α) :
    (pre ++ x :: post).set pre.length y = pre ++ y :: post := by
  rw [List.set_append]
  simp

theorem erase_snoc (u : List Int) (r : Int) (h : r ∉ u) : (u ++ [r]).erase r = u := by
  rw [List.erase_append_right _ h]
  simp

theorem childBounds_nil (base : Nat) : ChildBounds base [] := by
  intro k n hk
  simp at hk

theorem childBounds_append (base : Nat) (t1 t2 : List WitNode)
    (h1 : ChildBounds base t1) (h2 : ChildBounds (base + t1.length) t2) :
    ChildBounds base (t1 ++ t2) := by
  intro k n hk j hj
  rcases Nat.lt_or_ge k t1.length with hlt | hge
  · rw [List.getElem?_append_left hlt] at hk
    obtain ⟨ha, hb⟩ := h1 k n hk j hj
    refine ⟨ha, ?_⟩
    push_cast at hb ⊢
    simp only [List.length_append]
    push_cast
    omega
  · rw [List.getElem?_append_right hge] at hk
    obtain ⟨ha, hb⟩ := h2 (k - t1.length) n hk j hj
    push_cast at ha hb ⊢
    simp only [List.length_append]
    push_cast
    constructor
    · omega
    · omega

theorem unfinishedBelow_extend (b : WitValueBuilder) (n : WitNode)
    (h : UnfinishedBelow b) : UnfinishedBelow ⟨b.nodes ++ [n], b.unfinished⟩ := by
  intro j hj
  have hlt := h j hj
  simp only [List.length_append, List.length_singleton]
  push_cast at hlt ⊢
  omega

theorem unfinishedBelow_reserve (b : WitValueBuilder) (n : WitNode)
    (h : UnfinishedBelow b) :
    UnfinishedBelow ⟨b.nodes ++ [n], b.unfinished ++ [(b.nodes.length : Int)]⟩ := by
  intro j hj
  simp only [List.length_append, List.length_singleton]
  rcases List.mem_append.mp hj with h1 | h1
  · have hlt := h j h1
    push_cast at hlt
    omega
  · simp only [List.mem_singleton] at h1
    subst h1
    push_cast
    omega

theorem unfinishedBelow_block (b : WitValueBuilder) (t : List WitNode)
    (h : UnfinishedBelow b) : UnfinishedBelow ⟨b.nodes ++ t, b.unfinished⟩ := by
  intro j hj
  have hlt := h j hj
  simp only [List.length_append]
  push_cast at hlt ⊢
  omega

theorem not_mem_unfinished (b : WitValueBuilder) (h : UnfinishedBelow b) :
    ((b.nodes.length : Nat) : Int) ∉ b.unfinished := by
  intro hmem
  have := h _ hmem
  omega

/-! ### Decoder step lemmas -/

theorem step_record (nodes : List WitNode) (fuel : Nat) (i : Int) (idxs : List Int)
    (h : deref nodes i = some (.RecordValue idxs)) :
    build_tree nodes (fuel + 1) i =
      (mapOpt (fun j => build_tree nodes fuel j) idxs).map Value.record := by
  simp [build_tree, h]

theorem step_tuple (nodes : List WitNode) (fuel : Nat) (i : Int) (idxs : List Int)
    (h : deref nodes i = some (.TupleValue idxs)) :
    build_tree nodes (fuel + 1) i =
      (mapOpt (fun j => build_tree nodes fuel j) idxs).map Value.tuple := by
  simp [build_tree, h]

theorem step_list (nodes : List WitNode) (fuel : Nat) (i : Int) (idxs : List Int)
    (h : deref nodes i = some (.ListValue idxs)) :
    build_tree nodes (fuel + 1) i =
      (mapOpt (fun j => build_tree nodes fuel j) idxs).map Value.list := by
  simp [build_tree, h]

theorem step_variant_some (nodes : List WitNode) (fuel : Nat) (i : Int)
    (c : Nat) (j : Int) (h : deref nodes i = some (.VariantValue c (some j))) :
    build_tree nodes (fuel + 1) i =
      (build_tree nodes fuel j).map (fun v => Value.variant c (some v)) := by
  simp [build_tree, h]

theorem step_option_some (nodes : List WitNode) (fuel : Nat) (i : Int)
    (j : Int) (h : deref nodes i = some (.OptionValue (some j))) :
    build_tree nodes (fuel + 1) i =
      (build_tree nodes fuel j).map (fun v => Value.option (some v)) := by
  simp [build_tree, h]

theorem step_result_some (nodes : List WitNode) (fuel : Nat) (i : Int)
    (isOk : Bool) (j : Int) (h : deref nodes i = some (.ResultValue isOk (some j))) :
    build_tree nodes (fuel + 1) i =
      (build_tree nodes fuel j).map (fun v => Value.result isOk (some v)) := by
  cases isOk <;> simp [build_tree, h]

/-! ### Builder finish lemmas -/

theorem finish_seq_mid (orig : List WitNode) (rn rn2 : WitNode) (T : List WitNode)
    (u : List Int) (items : List Int)
    (hu : ((orig.length : Nat) : Int) ∉ u)
    (hset : setSeqChildren rn items = some rn2) :
    WitValueBuilder.finish_seq ⟨orig ++ [rn] ++ T, u ++ [((orig.length : Nat) : Int)]⟩
        items ((orig.length : Nat) : Int)
      = some ⟨orig ++ [rn2] ++ T, u⟩ := by
  have hlook : (orig ++ [rn] ++ T)[orig.length]? = some rn := by
    have h := getElem?_middle orig [rn] T 0 (by simp)
    simpa using h
  have hcond : (0 : Int) ≤ ((orig.length : Nat) : Int) ∧
      ((orig.length : Nat) : Int) ∈ u ++ [((orig.length : Nat) : Int)] := by
    constructor
    · positivity
    · simp
  unfold WitValueBuilder.finish_seq
  rw [if_pos hcond]
  simp only [Int.toNat_natCast, hlook, hset]
  have hset2 : (orig ++ [rn] ++ T).set orig.length rn2 = orig ++ [rn2] ++ T := by
    rw [List.append_assoc, List.singleton_append, set_middle,
      ← List.singleton_append, ← List.append_assoc]
  rw [hset2, erase_snoc u _ hu]

theorem finish_child_mid (orig : List WitNode) (rn rn2 : WitNode) (T : List WitNode)
    (u : List Int) (child : Int)
    (hu : ((orig.length : Nat) : Int) ∉ u)
    (hset : setSingleChild rn child = some rn2) :
    WitValueBuilder.finish_child ⟨orig ++ [rn] ++ T, u ++ [((orig.length : Nat) : Int)]⟩
        child ((orig.length : Nat) : Int)
      = some ⟨orig ++ [rn2] ++ T, u⟩ := by
  have hlook : (orig ++ [rn] ++ T)[orig.length]? = some rn := by
    have h := getElem?_middle orig [rn] T 0 (by simp)
    simpa using h
  have hcond : (0 : Int) ≤ ((orig.length : Nat) : Int) ∧
      ((orig.length : Nat) : Int) ∈ u ++ [((orig.length : Nat) : Int)] := by
    constructor
    · positivity
    · simp
  unfold WitValueBuilder.finish_child
  rw [if_pos hcond]
  simp only [Int.toNat_natCast, hlook, hset]
  have hset2 : (orig ++ [rn] ++ T).set orig.length rn2 = orig ++ [rn2] ++ T := by
    rw [List.append_assoc, List.singleton_append, set_middle,
      ← List.singleton_append, ← List.append_assoc]
  rw [hset2, erase_snoc u _ hu]

/-! ### Leaf encoder lemma -/

theorem encOk_leaf (v : Value) (hd : WitNode) (b : WitValueBuilder)
    (henc : build_wit_value v b =
      some ((b.nodes.length : Int), ⟨b.nodes ++ [hd], b.unfinished⟩))
    (hkind : sameKind v hd = true)
    (hchild : childIndices hd = [])
    (hstep : ∀ nodes fuel i, deref nodes i = some hd →
      build_tree nodes (fuel + 1) i = some v) :
    EncOk v b := by
  refine ⟨hd, [], henc, hkind, ?_, ?_⟩
  · intro k n hk j hj
    rcases k with _ | k
    · simp only [List.getElem?_cons_zero, Option.some.injEq] at hk
      subst hk
      rw [hchild] at hj
      exact absurd hj (List.not_mem_nil j)
    · simp at hk
  · intro pre post fuel hpre hfuel
    simp only [List.length_cons, List.length_nil] at hfuel
    obtain ⟨f, rfl⟩ : ∃ f, fuel = f + 1 := ⟨fuel - 1, by omega⟩
    have hd1 := deref_head pre hd [] post
    rw [hpre] at hd1
    exact hstep _ f _ hd1

/-! ### Element loop lemma -/

theorem encItemsOk_of (vs : List Value)
    (IH : ∀ v ∈ vs, ∀ b, UnfinishedBelow b → EncOk v b) :
    ∀ b, UnfinishedBelow b → EncItemsOk vs b := by
  induction vs with
  | nil =>
    intro b hub
    refine ⟨[], [], ?_, childBounds_nil _, ?_, ?_⟩
    · simp [buildItems]
    · intro j hj
      exact absurd hj (List.not_mem_nil j)
    · intro pre post fuel hpre hfuel
      simp [mapOpt]
  | cons v vs ihl =>
    intro b hub
    obtain ⟨hd, tl, henc, hkind, hcb, hdec⟩ := IH v (by simp) b hub
    have hub2 : UnfinishedBelow ⟨b.nodes ++ (hd :: tl), b.unfinished⟩ :=
      unfinishedBelow_block b _ hub
    obtain ⟨T2, idxs2, hitems2, hcb2, hbnd2, hdec2⟩ :=
      ihl (fun x hx => IH x (by simp [hx])) ⟨b.nodes ++ (hd :: tl), b.unfinished⟩ hub2
    refine ⟨(hd :: tl) ++ T2, (b.nodes.length : Int) :: idxs2, ?_, ?_, ?_, ?_⟩
    · simp only [buildItems, henc]
      rw [hitems2]
      simp [List.append_assoc]
    · apply childBounds_append _ _ _ hcb
      simpa [List.length_append] using hcb2
    · intro j hj
      rcases List.mem_cons.mp hj with rfl | hj2
      · constructor
        · exact le_refl _
        · simp only [List.length_append, List.length_cons]
          push_cast
          omega
      · obtain ⟨h1, h2⟩ := hbnd2 j hj2
        simp only [List.length_append, List.length_cons] at h1 h2
        push_cast at h1 h2
        simp only [List.length_append, List.length_cons]
        push_cast
        omega
    · intro pre post fuel hpre hfuel
      simp only [List.length_append, List.length_cons] at hfuel
      have h1 : build_tree (pre ++ (hd :: tl) ++ (T2 ++ post)) fuel
          ((b.nodes.length : Int)) = some v := by
        apply hdec pre (T2 ++ post) fuel hpre
        simp only [List.length_cons]
        omega
      have h2 : mapOpt
          (fun j => build_tree ((pre ++ (hd :: tl)) ++ T2 ++ post) fuel j) idxs2 =
          some vs := by
        apply hdec2 (pre ++ (hd :: tl)) post fuel
        · simp [List.length_append, hpre]
        · omega
      simp only [List.append_assoc] at h1 h2 ⊢
      simp only [mapOpt, h1, h2]

/-! ### Container encoder lemmas -/

theorem childBounds_cons (base : Nat) (hd : WitNode) (T : List WitNode)
    (hhd : ∀ j ∈ childIndices hd, (base : Int) < j ∧ j < ((base + (T.length + 1) : Nat) : Int))
    (hT : ChildBounds (base + 1) T) :
    ChildBounds base (hd :: T) := by
  intro k n hk j hj
  rcases k with _ | k
  · simp only [List.getElem?_cons_zero, Option.some.injEq] at hk
    subst hk
    obtain ⟨h1, h2⟩ := hhd j hj
    push_cast at h1 h2 ⊢
    simp only [List.length_cons]
    push_cast
    omega
  · simp only [List.getElem?_cons_succ] at hk
    obtain ⟨h1, h2⟩ := hT k n hk j hj
    push_cast at h1 h2 ⊢
    simp only [List.length_cons]
    push_cast
    omega

theorem encOk_seq (mkV : List Value → Value) (mkN : List Int → WitNode)
    (vs : List Value) (b : WitValueBuilder) (hub : UnfinishedBelow b)
    (hitems : EncItemsOk vs
      ⟨b.nodes ++ [mkN []], b.unfinished ++ [(b.nodes.length : Int)]⟩)
    (hunfold : build_wit_value (mkV vs) b =
      match buildItems vs
          ⟨b.nodes ++ [mkN []], b.unfinished ++ [(b.nodes.length : Int)]⟩ with
      | none => none
      | some (items, b2) =>
        match b2.finish_seq items (b.nodes.length : Int) with
        | none => none
        | some b3 => some ((b.nodes.length : Int), b3))
    (hkind : ∀ items, sameKind (mkV vs) (mkN items) = true)
    (hchild : ∀ items, childIndices (mkN items) = items)
    (hset : ∀ old items, setSeqChildren (mkN old) items = some (mkN items))
    (hstep : ∀ nodes fuel i idxs, deref nodes i = some (mkN idxs) →
      build_tree nodes (fuel + 1) i =
        (mapOpt (fun j => build_tree nodes fuel j) idxs).map mkV) :
    EncOk (mkV vs) b := by
  obtain ⟨T, idxs, hitems_eq, hcb, hbnd, hdecs⟩ := hitems
  have hb1nodes : (WitValueBuilder.mk (b.nodes ++ [mkN []])
      (b.unfinished ++ [(b.nodes.length : Int)])).nodes = b.nodes ++ [mkN []] := rfl
  have hb1len : (b.nodes ++ [mkN []]).length = b.nodes.length + 1 := by
    simp
  have hfin := finish_seq_mid b.nodes (mkN []) (mkN idxs) T b.unfinished idxs
    (not_mem_unfinished b hub) (hset [] idxs)
  refine ⟨mkN idxs, T, ?_, hkind idxs, ?_, ?_⟩
  · rw [hunfold, hitems_eq]
    simp only [hb1nodes, List.append_assoc] at hfin ⊢
    rw [hfin]
    simp
  · apply childBounds_cons
    · intro j hj
      rw [hchild idxs] at hj
      obtain ⟨h1, h2⟩ := hbnd j hj
      simp only [hb1nodes, hb1len] at h1 h2
      push_cast at h1 h2 ⊢
      omega
    · intro k n hk j hj
      obtain ⟨h1, h2⟩ := hcb k n hk j hj
      simp only [hb1nodes, hb1len] at h1 h2
      push_cast at h1 h2 ⊢
      omega
  · intro pre post fuel hpre hfuel
    simp only [List.length_cons] at hfuel
    obtain ⟨f, rfl⟩ : ∃ f, fuel = f + 1 := ⟨fuel - 1, by omega⟩
    have hhd := deref_head pre (mkN idxs) T post
    rw [hpre] at hhd
    rw [hstep _ f _ idxs hhd]
    have hmap := hdecs (pre ++ [mkN idxs]) post f
      (by simp [List.length_append, hpre, hb1nodes]) (by omega)
    simp only [List.append_assoc, List.singleton_append, List.cons_append,
      List.nil_append] at hmap ⊢
    rw [hmap]
    rfl

theorem encOk_wrap (wrapV : Value → Value) (mkN : Option Int → WitNode)
    (inner : Value) (b : WitValueBuilder) (hub : UnfinishedBelow b)
    (hIH : ∀ b1, UnfinishedBelow b1 → EncOk inner b1)
    (hunfold : build_wit_value (wrapV inner) b =
      match build_wit_value inner
          ⟨b.nodes ++ [mkN (some (-1))], b.unfinished ++ [(b.nodes.length : Int)]⟩ with
      | none => none
      | some (inner_idx, b2) =>
        match b2.finish_child inner_idx (b.nodes.length : Int) with
        | none => none
        | some b3 => some ((b.nodes.length : Int), b3))
    (hkind : ∀ j, sameKind (wrapV inner) (mkN (some j)) = true)
    (hchild : ∀ j, childIndices (mkN (some j)) = [j])
    (hset : ∀ s child, setSingleChild (mkN s) child = some (mkN (some child)))
    (hstep : ∀ nodes fuel i j, deref nodes i = some (mkN (some j)) →
      build_tree nodes (fuel + 1) i = (build_tree nodes fuel j).map wrapV) :
    EncOk (wrapV inner) b := by
  have hub1 : UnfinishedBelow
      ⟨b.nodes ++ [mkN (some (-1))], b.unfinished ++ [(b.nodes.length : Int)]⟩ :=
    unfinishedBelow_reserve b _ hub
  obtain ⟨hd1, tl1, henc1, hkind1, hcb1, hdec1⟩ := hIH _ hub1
  have hb1nodes : (WitValueBuilder.mk (b.nodes ++ [mkN (some (-1))])
      (b.unfinished ++ [(b.nodes.length : Int)])).nodes = b.nodes ++ [mkN (some (-1))] := rfl
  have hb1len : (b.nodes ++ [mkN (some (-1))]).length = b.nodes.length + 1 := by
    simp
  have hfin := finish_child_mid b.nodes (mkN (some (-1)))
    (mkN (some ((b.nodes ++ [mkN (some (-1))]).length : Int))) (hd1 :: tl1) b.unfinished
    ((b.nodes ++ [mkN (some (-1))]).length : Int)
    (not_mem_unfinished b hub) (hset _ _)
  refine ⟨mkN (some ((b.nodes ++ [mkN (some (-1))]).length : Int)), hd1 :: tl1, ?_, hkind _, ?_, ?_⟩
  · rw [hunfold, henc1]
    simp only [hb1nodes, List.append_assoc] at hfin ⊢
    rw [hfin]
    simp [List.singleton_append]
  · apply childBounds_cons
    · intro j hj
      rw [hchild _] at hj
      simp only [List.mem_singleton] at hj
      subst hj
      simp only [hb1len]
      constructor
      · push_cast
        omega
      · push_cast
        simp only [List.length_cons]
        push_cast
        omega
    · intro k n hk j hj
      obtain ⟨h1, h2⟩ := hcb1 k n hk j hj
      simp only [hb1nodes, hb1len] at h1 h2
      push_cast at h1 h2 ⊢
      omega
  · intro pre post fuel hpre hfuel
    simp only [List.length_cons] at hfuel
    obtain ⟨f, rfl⟩ : ∃ f, fuel = f + 1 := ⟨fuel - 1, by omega⟩
    have hhd := deref_head pre (mkN (some ((b.nodes ++ [mkN (some (-1))]).length : Int)))
      (hd1 :: tl1) post
    rw [hpre] at hhd
    rw [hstep _ f _ _ hhd]
    have hinner := hdec1 (pre ++ [mkN (some ((b.nodes ++ [mkN (some (-1))]).length : Int))])
      post f (by simp [List.length_append, hpre, hb1nodes])
      (by simp only [List.length_cons]; omega)
    simp only [hb1nodes, hb1len] at hinner
    rw [show ((b.nodes ++ [mkN (some (-1))]).length : Int)
        = ((b.nodes.length + 1 : Nat) : Int) by rw [hb1len]]
    simp only [List.append_assoc, List.singleton_append] at hinner ⊢
    rw [hinner]
    rfl

/-! ### Master encoder correctness -/

theorem encOk_all : ∀ (n : Nat) (v : Value), sizeOf v ≤ n →
    ∀ b : WitValueBuilder, UnfinishedBelow b → EncOk v b := by
  intro n
  induction n with
  | zero =>
    intro v hv b hub
    exfalso
    cases v <;> simp at hv
  | succ n ih =>
    intro v hv b hub
    cases v with
    | bool x =>
      exact encOk_leaf _ (.PrimBool x) b
        (by simp [build_wit_value, WitValueBuilder.add_bool, WitValueBuilder.addNode])
        rfl rfl (fun nodes fuel i h => by simp [build_tree, h])
    | u8 x =>
      exact encOk_leaf _ (.PrimU8 x) b
        (by simp [build_wit_value, WitValueBuilder.add_u8, WitValueBuilder.addNode])
        rfl rfl (fun nodes fuel i h => by simp [build_tree, h])
    | u16 x =>
      exact encOk_leaf _ (.PrimU16 x) b
        (by simp [build_wit_value, WitValueBuilder.add_u16, WitValueBuilder.addNode])
        rfl rfl (fun nodes fuel i h => by simp [build_tree, h])
    | u32 x =>
      exact encOk_leaf _ (.PrimU32 x) b
        (by simp [build_wit_value, WitValueBuilder.add_u32, WitValueBuilder.addNode])
        rfl rfl (fun nodes fuel i h => by simp [build_tree, h])
    | u64 x =>
      exact encOk_leaf _ (.PrimU64 x) b
        (by simp [build_wit_value, WitValueBuilder.add_u64, WitValueBuilder.addNode])
        rfl rfl (fun nodes fuel i h => by simp [build_tree, h])
    | s8 x =>
      exact encOk_leaf _ (.PrimS8 x) b
        (by simp [build_wit_value, WitValueBuilder.add_s8, WitValueBuilder.addNode])
        rfl rfl (fun nodes fuel i h => by simp [build_tree, h])
    | s16 x =>
      exact encOk_leaf _ (.PrimS16 x) b
        (by simp [build_wit_value, WitValueBuilder.add_s16, WitValueBuilder.addNode])
        rfl rfl (fun nodes fuel i h => by simp [build_tree, h])
    | s32 x =>
      exact encOk_leaf _ (.PrimS32 x) b
        (by simp [build_wit_value, WitValueBuilder.add_s32, WitValueBuilder.addNode])
        rfl rfl (fun nodes fuel i h => by simp [build_tree, h])
    | s64 x =>
      exact encOk_leaf _ (.PrimS64 x) b
        (by simp [build_wit_value, WitValueBuilder.add_s64, WitValueBuilder.addNode])
        rfl rfl (fun nodes fuel i h => by simp [build_tree, h])
    | f32 x =>
      exact encOk_leaf _ (.PrimFloat32 x) b
        (by simp [build_wit_value, WitValueBuilder.add_f32, WitValueBuilder.addNode])
        rfl rfl (fun nodes fuel i h => by simp [build_tree, h])
    | f64 x =>
      exact encOk_leaf _ (.PrimFloat64 x) b
        (by simp [build_wit_value, WitValueBuilder.add_f64, WitValueBuilder.addNode])
        rfl rfl (fun nodes fuel i h => by simp [build_tree, h])
    | char x =>
      exact encOk_leaf _ (.PrimChar x) b
        (by simp [build_wit_value, WitValueBuilder.add_char, WitValueBuilder.addNode])
        rfl rfl (fun nodes fuel i h => by simp [build_tree, h])
    | string x =>
      exact encOk_leaf _ (.PrimString x) b
        (by simp [build_wit_value, WitValueBuilder.add_string, WitValueBuilder.addNode])
        rfl rfl (fun nodes fuel i h => by simp [build_tree, h])
    | enum x =>
      exact encOk_leaf _ (.EnumValue x) b
        (by simp [build_wit_value, WitValueBuilder.add_enum_value, WitValueBuilder.addNode])
        rfl rfl (fun nodes fuel i h => by simp [build_tree, h])
    | flags xs =>
      exact encOk_leaf _ (.FlagsValue xs) b
        (by simp [build_wit_value, WitValueBuilder.add_flags, WitValueBuilder.addNode])
        rfl rfl (fun nodes fuel i h => by simp [build_tree, h])
    | list vs =>
      have hIH : ∀ x ∈ vs, ∀ b1, UnfinishedBelow b1 → EncOk x b1 := by
        intro x hx b1 hub1
        have hlt := List.sizeOf_lt_of_mem hx
        refine ih x ?_ b1 hub1
        simp at hv
        omega
      exact encOk_seq Value.list WitNode.ListValue vs b hub
        (encItemsOk_of vs hIH _ (unfinishedBelow_reserve b _ hub))
        (by simp [build_wit_value, WitValueBuilder.add_list, WitValueBuilder.addReserved])
        (fun items => rfl) (fun items => rfl) (fun old items => rfl)
        step_list
    | tuple vs =>
      have hIH : ∀ x ∈ vs, ∀ b1, UnfinishedBelow b1 → EncOk x b1 := by
        intro x hx b1 hub1
        have hlt := List.sizeOf_lt_of_mem hx
        refine ih x ?_ b1 hub1
        simp at hv
        omega
      exact encOk_seq Value.tuple WitNode.TupleValue vs b hub
        (encItemsOk_of vs hIH _ (unfinishedBelow_reserve b _ hub))
        (by simp [build_wit_value, WitValueBuilder.add_tuple, WitValueBuilder.addReserved])
        (fun items => rfl) (fun items => rfl) (fun old items => rfl)
        step_tuple
    | record vs =>
      have hIH : ∀ x ∈ vs, ∀ b1, UnfinishedBelow b1 → EncOk x b1 := by
        intro x hx b1 hub1
        have hlt := List.sizeOf_lt_of_mem hx
        refine ih x ?_ b1 hub1
        simp at hv
        omega
      exact encOk_seq Value.record WitNode.RecordValue vs b hub
        (encItemsOk_of vs hIH _ (unfinishedBelow_reserve b _ hub))
        (by simp [build_wit_value, WitValueBuilder.add_record, WitValueBuilder.addReserved])
        (fun items => rfl) (fun items => rfl) (fun old items => rfl)
        step_record
    | variant c cv =>
      cases cv with
      | none =>
        exact encOk_leaf _ (.VariantValue c none) b
          (by simp [build_wit_value, WitValueBuilder.add_variant_unit, WitValueBuilder.addNode])
          rfl rfl (fun nodes fuel i h => by simp [build_tree, h])
      | some inner =>
        have hsz : sizeOf inner ≤ n := by
          simp at hv
          omega
        exact encOk_wrap (fun x => Value.variant c (some x))
          (fun o => WitNode.VariantValue c o) inner b hub
          (fun b1 hub1 => ih inner hsz b1 hub1)
          (by simp [build_wit_value, WitValueBuilder.add_variant, WitValueBuilder.addReserved])
          (fun j => rfl) (fun j => rfl) (fun s child => rfl)
          (fun nodes fuel i j h => step_variant_some nodes fuel i c j h)
    | option cv =>
      cases cv with
      | none =>
        exact encOk_leaf _ (.OptionValue none) b
          (by simp [build_wit_value, WitValueBuilder.add_option_none, WitValueBuilder.addNode])
          rfl rfl (fun nodes fuel i h => by simp [build_tree, h])
      | some inner =>
        have hsz : sizeOf inner ≤ n := by
          simp at hv
          omega
        exact encOk_wrap (fun x => Value.option (some x))
          (fun o => WitNode.OptionValue o) inner b hub
          (fun b1 hub1 => ih inner hsz b1 hub1)
          (by simp [build_wit_value, WitValueBuilder.add_option_some, WitValueBuilder.addReserved])
          (fun j => rfl) (fun j => rfl) (fun s child => rfl)
          (fun nodes fuel i j h => step_option_some nodes fuel i j h)
    | result isOk cv =>
      cases cv with
      | none =>
        cases isOk with
        | true =>
          exact encOk_leaf _ (.ResultValue true none) b
            (by simp [build_wit_value, WitValueBuilder.add_result_ok_unit, WitValueBuilder.addNode])
            rfl rfl (fun nodes fuel i h => by simp [build_tree, h])
        | false =>
          exact encOk_leaf _ (.ResultValue false none) b
            (by simp [build_wit_value, WitValueBuilder.add_result_err_unit, WitValueBuilder.addNode])
            rfl rfl (fun nodes fuel i h => by simp [build_tree, h])
      | some inner =>
        have hsz : sizeOf inner ≤ n := by
          simp at hv
          omega
        cases isOk with
        | true =>
          exact encOk_wrap (fun x => Value.result true (some x))
            (fun o => WitNode.ResultValue true o) inner b hub
            (fun b1 hub1 => ih inner hsz b1 hub1)
            (by simp [build_wit_value, WitValueBuilder.add_result_ok, WitValueBuilder.addReserved])
            (fun j => rfl) (fun j => rfl) (fun s child => rfl)
            (fun nodes fuel i j h => step_result_some nodes fuel i true j h)
        | false =>
          exact encOk_wrap (fun x => Value.result false (some x))
            (fun o => WitNode.ResultValue false o) inner b hub
            (fun b1 hub1 => ih inner hsz b1 hub1)
            (by simp [build_wit_value, WitValueBuilder.add_result_err, WitValueBuilder.addReserved])
            (fun j => rfl) (fun j => rfl) (fun s child => rfl)
            (fun nodes fuel i j h => step_result_some nodes fuel i false j h)

/-! ### Top-level corollaries of the master lemma -/

theorem unfinishedBelow_new : UnfinishedBelow WitValueBuilder.new := by
  intro j hj
  exact absurd hj (List.not_mem_nil j)

theorem valueToWitValue_eq (v : Value) :
    ∃ hd tl, valueToWitValue v = some ⟨hd :: tl⟩ ∧ sameKind v hd = true ∧
      ChildBounds 0 (hd :: tl) ∧ DecodesTo (hd :: tl) 0 v := by
  obtain ⟨hd, tl, henc, hkind, hcb, hdec⟩ :=
    encOk_all (sizeOf v) v (le_refl _) WitValueBuilder.new unfinishedBelow_new
  refine ⟨hd, tl, ?_, hkind, ?_, ?_⟩
  · unfold valueToWitValue
    rw [henc]
    simp [WitValueBuilder.build, WitValueBuilder.new]
  · simpa [WitValueBuilder.new] using hcb
  · simpa [WitValueBuilder.new] using hdec

theorem validForward_of_childBounds (nodes : List WitNode)
    (h : ChildBounds 0 nodes) : validForward nodes = true := by
  unfold validForward
  rw [List.all_eq_true]
  intro p hp
  rw [List.all_eq_true]
  intro j hj
  obtain ⟨h1, h2⟩ := h p.1 p.2 (List.mem_enum_iff_getElem?.mp hp) j hj
  simp only [Nat.zero_add] at h1 h2
  simp only [Bool.and_eq_true, decide_eq_true_eq]
  exact ⟨h1, h2⟩

theorem validForward_spec (nodes : List WitNode) (h : validForward nodes = true) :
    ∀ (i : Nat) (n : WitNode), nodes[i]? = some n → ∀ j ∈ childIndices n,
      ((i : Nat) : Int) < j ∧ j < ((nodes.length : Nat) : Int) := by
  intro i n hi j hj
  unfold validForward at h
  rw [List.all_eq_true] at h
  have h2 := h (i, n) (List.mk_mem_enum_iff_getElem?.mpr hi)
  rw [List.all_eq_true] at h2
  have h3 := h2 j hj
  simp only [Bool.and_eq_true, decide_eq_true_eq] at h3
  exact h3

theorem mapOpt_isSome {α β : Type} (f : α → Option β) (l : List α)
    (h : ∀ a ∈ l, (f a).isSome = true) : (mapOpt f l).isSome = true := by
  induction l with
  | nil => simp [mapOpt]
  | cons a as iha =>
    have ha := h a (by simp)
    obtain ⟨b, hb⟩ := Option.isSome_iff_exists.mp ha
    have has := iha (fun x hx => h x (by simp [hx]))
    obtain ⟨bs, hbs⟩ := Option.isSome_iff_exists.mp has
    simp [mapOpt, hb, hbs]

theorem isSome_map {α β : Type} (f : α → β) (o : Option α) :
    (Option.map f o).isSome = o.isSome := by
  cases o <;> rfl

theorem decode_terminates_aux (nodes : List WitNode)
    (hvf : ∀ (i : Nat) (n : WitNode), nodes[i]? = some n → ∀ j ∈ childIndices n,
      ((i : Nat) : Int) < j ∧ j < ((nodes.length : Nat) : Int)) :
    ∀ (fuel : Nat) (i : Int), 0 ≤ i → i.toNat < nodes.length →
      nodes.length - i.toNat ≤ fuel → (build_tree nodes fuel i).isSome = true := by
  intro fuel
  induction fuel with
  | zero =>
    intro i h1 h2 h3
    omega
  | succ f ihf =>
    intro i h1 h2 h3
    obtain ⟨n, hget⟩ : ∃ n, nodes[i.toNat]? = some n :=
      ⟨nodes[i.toNat], List.getElem?_eq_getElem h2⟩
    have hderef : deref nodes i = some n := by
      simp [deref, h1, hget]
    have hchildren : ∀ j ∈ childIndices n,
        (build_tree nodes f j).isSome = true := by
      intro j hj
      obtain ⟨hj1, hj2⟩ := hvf i.toNat n hget j hj
      exact ihf j (by omega) (by omega) (by omega)
    cases n with
    | RecordValue idxs =>
      rw [step_record nodes f i idxs hderef]
      rw [isSome_map]
      exact mapOpt_isSome _ _ (fun j hj => hchildren j hj)
    | TupleValue idxs =>
      rw [step_tuple nodes f i idxs hderef]
      rw [isSome_map]
      exact mapOpt_isSome _ _ (fun j hj => hchildren j hj)
    | ListValue idxs =>
      rw [step_list nodes f i idxs hderef]
      rw [isSome_map]
      exact mapOpt_isSome _ _ (fun j hj => hchildren j hj)
    | VariantValue c oj =>
      cases oj with
      | none => simp [build_tree, hderef]
      | some j =>
        rw [step_variant_some nodes f i c j hderef]
        rw [isSome_map]
        exact hchildren j (by simp [childIndices])
    | OptionValue oj =>
      cases oj with
      | none => simp [build_tree, hderef]
      | some j =>
        rw [step_option_some nodes f i j hderef]
        rw [isSome_map]
        exact hchildren j (by simp [childIndices])
    | ResultValue isOk oj =>
      cases oj with
      | none => cases isOk <;> simp [build_tree, hderef]
      | some j =>
        rw [step_result_some nodes f i isOk j hderef]
        rw [isSome_map]
        exact hchildren j (by simp [childIndices])
    | EnumValue x => simp [build_tree, hderef]
    | FlagsValue x => simp [build_tree, hderef]
    | PrimU8 x => simp [build_tree, hderef]
    | PrimU16 x => simp [build_tree, hderef]
    | PrimU32 x => simp [build_tree, hderef]
    | PrimU64 x => simp [build_tree, hderef]
    | PrimS8 x => simp [build_tree, hderef]
    | PrimS16 x => simp [build_tree, hderef]
    | PrimS32 x => simp [build_tree, hderef]
    | PrimS64 x => simp [build_tree, hderef]
    | PrimFloat32 x => simp [build_tree, hderef]
    | PrimFloat64 x => simp [build_tree, hderef]
    | PrimChar x => simp [build_tree, hderef]
    | PrimBool x => simp [build_tree, hderef]
    | PrimString x => simp [build_tree, hderef]

/-! ## Claim theorems -/

/-- The node at position 0 of the sequence has the kind of the given value
(`false` for the empty sequence). -/
def rootSameKind (v : Value) (w : WitValue) : Bool :=
  match w.nodes with
  | hd :: _ => sameKind v hd
  | [] => false

/-- Claim C1: for every `Value` `v`, decoding the `WitValue` produced by
encoding `v` yields `v` back, structurally equal: scalar bit-patterns
(float payloads are carried as raw bit patterns in this embedding, so the
spec's reflexive-float-equality proviso is subsumed: bit-for-bit identical
payloads are always equal here), sequence order, variant/enum case indices,
flags vectors, and the presence/absence distinction inside `Option` and each
`Result` arm are all preserved. -/
theorem claim_roundtrip (v : Value) (w : WitValue)
    (h : valueToWitValue v = some w) : witValueToValue w = some v := by
  obtain ⟨hd, tl, henc, hkind, hcb, hdec⟩ := valueToWitValue_eq v
  rw [h] at henc
  injection henc with heq
  subst heq
  have hdecode := hdec [] [] (hd :: tl).length rfl (le_refl _)
  unfold witValueToValue
  rw [if_neg (by simp)]
  simpa using hdecode

theorem claim_roundtrip_witness :
    witValueToValue ⟨[.TupleValue [1, 2], .PrimS8 (-5), .FlagsValue [true, false]]⟩ =
      some (.tuple [.s8 (-5), .flags [true, false]]) :=
  claim_roundtrip (.tuple [.s8 (-5), .flags [true, false]])
    ⟨[.TupleValue [1, 2], .PrimS8 (-5), .FlagsValue [true, false]]⟩ (by rfl)

/-- Claim C2, counterexample: the claim says an out-of-range child index is
surfaced as a structured "corrupt encoding" error to the caller.  It is not:
`impl From<WitValue> for Value` returns a bare `Value` — there is no error
channel at all — and the dereference `&nodes[*index as usize]` in
`build_tree` panics.  On the two-node sequence whose root references the
out-of-range position 5, the decode is a panic (`none` in this embedding),
not an error value handed to the caller. -/
theorem claim_decode_oob_counterexample :
    witValueToValue ⟨[.OptionValue (some 5), .PrimBool true]⟩ = none := by rfl

/-- `build_tree` returns `none` at every fuel when the position itself cannot
be dereferenced. -/
theorem build_tree_none_of_deref_none (nodes : List WitNode) (j : Int)
    (h : deref nodes j = none) : ∀ fuel, build_tree nodes fuel j = none := by
  intro fuel
  cases fuel with
  | zero => rfl
  | succ f => simp [build_tree, h]

/-- The child loop of the decoder fails as soon as any child fails. -/
theorem mapOpt_eq_none {α β : Type} (f : α → Option β) (l : List α) (a : α)
    (ha : a ∈ l) (hfa : f a = none) : mapOpt f l = none := by
  induction l with
  | nil => exact absurd ha (List.not_mem_nil a)
  | cons x xs ihx =>
    rcases List.mem_cons.mp ha with rfl | hmem
    · simp [mapOpt, hfa]
    · cases hx : f x with
      | none => simp [mapOpt, hx]
      | some b => simp [mapOpt, hx, ihx hmem]

/-- Claim C2, amended: `build_tree` performs no decode-level bounds check and
returns no structured error.  Whatever the container kind of the node decode
visits — record, tuple, list, variant with payload, present option, or either
result arm — if any child index it carries is out of range, the child
dereference panics, modeled as `none`, for every sufficient fuel, and no
`Value` is ever produced. -/
theorem claim_decode_oob_panics (nodes : List WitNode) (n : WitNode)
    (i j : Int) (fuel : Nat)
    (hnode : deref nodes i = some n)
    (hj : j ∈ childIndices n)
    (hoob : deref nodes j = none) :
    build_tree nodes (fuel + 1) i = none := by
  have hbad := build_tree_none_of_deref_none nodes j hoob
  cases n with
  | RecordValue idxs =>
    rw [step_record nodes fuel i idxs hnode]
    rw [mapOpt_eq_none _ idxs j hj (hbad fuel)]
    rfl
  | TupleValue idxs =>
    rw [step_tuple nodes fuel i idxs hnode]
    rw [mapOpt_eq_none _ idxs j hj (hbad fuel)]
    rfl
  | ListValue idxs =>
    rw [step_list nodes fuel i idxs hnode]
    rw [mapOpt_eq_none _ idxs j hj (hbad fuel)]
    rfl
  | VariantValue c oj =>
    cases oj with
    | none => simp [childIndices] at hj
    | some j2 =>
      have heq : j = j2 := by simpa [childIndices] using hj
      subst heq
      rw [step_variant_some nodes fuel i c j hnode, hbad fuel]
      rfl
  | OptionValue oj =>
    cases oj with
    | none => simp [childIndices] at hj
    | some j2 =>
      have heq : j = j2 := by simpa [childIndices] using hj
      subst heq
      rw [step_option_some nodes fuel i j hnode, hbad fuel]
      rfl
  | ResultValue isOk oj =>
    cases oj with
    | none => simp [childIndices] at hj
    | some j2 =>
      have heq : j = j2 := by simpa [childIndices] using hj
      subst heq
      rw [step_result_some nodes fuel i isOk j hnode, hbad fuel]
      rfl
  | EnumValue x => simp [childIndices] at hj
  | FlagsValue x => simp [childIndices] at hj
  | PrimU8 x => simp [childIndices] at hj
  | PrimU16 x => simp [childIndices] at hj
  | PrimU32 x => simp [childIndices] at hj
  | PrimU64 x => simp [childIndices] at hj
  | PrimS8 x => simp [childIndices] at hj
  | PrimS16 x => simp [childIndices] at hj
  | PrimS32 x => simp [childIndices] at hj
  | PrimS64 x => simp [childIndices] at hj
  | PrimFloat32 x => simp [childIndices] at hj
  | PrimFloat64 x => simp [childIndices] at hj
  | PrimChar x => simp [childIndices] at hj
  | PrimBool x => simp [childIndices] at hj
  | PrimString x => simp [childIndices] at hj

theorem claim_decode_oob_panics_witness :
    build_tree [.RecordValue [1, 7], .PrimBool true] 2 0 = none :=
  claim_decode_oob_panics [.RecordValue [1, 7], .PrimBool true]
    (.RecordValue [1, 7]) 0 7 1 (by rfl) (by decide) (by rfl)

/-- Claim C3, counterexample: the claim says `decode` rejects the empty node
sequence with a structured recoverable error, never a crash.  The code's
`assert!(!value.nodes.is_empty())` is a panic — a crash, modeled as `none` —
and `impl From<WitValue> for Value` offers no error value to return. -/
theorem claim_decode_empty_counterexample :
    witValueToValue ⟨[]⟩ = none := by rfl

/-- Claim C3, amended: `encode` never returns an empty node sequence, and
`decode` rejects the empty sequence — but by an assertion panic (modeled as
`none`), not by a structured recoverable error. -/
theorem claim_encode_nonempty_decode_empty (v : Value) (w : WitValue)
    (h : valueToWitValue v = some w) :
    w.nodes ≠ [] ∧ witValueToValue ⟨[]⟩ = none := by
  obtain ⟨hd, tl, henc, _, _, _⟩ := valueToWitValue_eq v
  rw [h] at henc
  injection henc with heq
  subst heq
  exact ⟨by simp, rfl⟩

theorem claim_encode_nonempty_decode_empty_witness :
    (⟨[.PrimChar 'x']⟩ : WitValue).nodes ≠ [] ∧ witValueToValue ⟨[]⟩ = none :=
  claim_encode_nonempty_decode_empty (.char 'x') ⟨[.PrimChar 'x']⟩ (by rfl)

/-- Claim C4: in every `WitValue` produced by the encoder, every child index
carried by the node at position `i` is a valid position of the same sequence
and is strictly greater than `i` (the forward-reference invariant). -/
theorem claim_forward_reference (v : Value) (w : WitValue)
    (h : valueToWitValue v = some w) : validForward w.nodes = true := by
  obtain ⟨hd, tl, henc, hkind, hcb, hdec⟩ := valueToWitValue_eq v
  rw [h] at henc
  injection henc with heq
  subst heq
  exact validForward_of_childBounds _ hcb

theorem claim_forward_reference_witness :
    validForward [.VariantValue 2 (some 1), .PrimU16 9] = true :=
  claim_forward_reference (.variant 2 (some (.u16 9)))
    ⟨[.VariantValue 2 (some 1), .PrimU16 9]⟩ (by rfl)

/-- Claim C5: the node at position 0 of every encoder output is the top-level
node of the encoded value's kind (the root of the encoded tree), and decoding
a non-empty sequence always starts at position 0 (on its produced `WitValue`,
`witValueToValue` is exactly `build_tree` launched at index 0). -/
theorem claim_root_invariant (v : Value) (w : WitValue)
    (h : valueToWitValue v = some w) :
    rootSameKind v w = true ∧
    witValueToValue w = build_tree w.nodes w.nodes.length 0 := by
  obtain ⟨hd, tl, henc, hkind, hcb, hdec⟩ := valueToWitValue_eq v
  rw [h] at henc
  injection henc with heq
  subst heq
  constructor
  · simpa [rootSameKind] using hkind
  · unfold witValueToValue
    rw [if_neg (by simp)]

theorem claim_root_invariant_witness :
    rootSameKind (.enum 3) ⟨[.EnumValue 3]⟩ = true ∧
    witValueToValue ⟨[.EnumValue 3]⟩ =
      build_tree (⟨[.EnumValue 3]⟩ : WitValue).nodes
        (⟨[.EnumValue 3]⟩ : WitValue).nodes.length 0 :=
  claim_root_invariant (.enum 3) ⟨[.EnumValue 3]⟩ (by rfl)

/-- Claim C6: encoding always succeeds — for every `Value`, `From<Value> for
WitValue` produces a result, with no failure path (in this embedding the only
`none` paths are builder-contract violations, and none is ever hit). -/
theorem claim_encode_total (v : Value) : (valueToWitValue v).isSome = true := by
  obtain ⟨hd, tl, henc, _, _, _⟩ := valueToWitValue_eq v
  rw [henc]
  rfl

/-- Claim C7: during a single encode run started on a builder with no pending
reservations, every container reserved by a reserving add operation is
finished exactly once before `build` consumes the builder: the run succeeds
(each `finish_seq`/`finish_child` fails fast unless its target is a pending
reservation, so success rules out double finishing and finishing of
never-reserved nodes), the final pending-reservation list is empty again,
and `build` on the consumed builder succeeds. -/
theorem claim_reservations_finished (v : Value) (b : WitValueBuilder)
    (hempty : b.unfinished = []) :
    (build_wit_value v b).map (fun r => r.2.unfinished) = some [] ∧
    (build_wit_value v b).bind (fun r => r.2.build) ≠ none := by
  have hub : UnfinishedBelow b := by
    intro j hj
    rw [hempty] at hj
    exact absurd hj (List.not_mem_nil j)
  obtain ⟨hd, tl, henc, _, _, _⟩ := encOk_all (sizeOf v) v (le_refl _) b hub
  rw [henc]
  constructor
  · simp [hempty]
  · simp [WitValueBuilder.build, hempty]

theorem claim_reservations_finished_witness :
    (build_wit_value (.list [.bool true]) WitValueBuilder.new).map
        (fun r => r.2.unfinished) = some [] ∧
    (build_wit_value (.list [.bool true]) WitValueBuilder.new).bind
        (fun r => r.2.build) ≠ none :=
  claim_reservations_finished (.list [.bool true]) WitValueBuilder.new (by rfl)

/-- Claim C8: encoding `Record([U32(7), String("hi"), Option(Some(Bool(true)))])`
yields exactly the five-node sequence [record, u32, string, option, bool],
the record node's child indices are `[1, 2, 3]` — the u32, string and option
positions in that order — and decoding that sequence reproduces the record
exactly. -/
theorem claim_example_record :
    valueToWitValue (.record [.u32 7, .string "hi", .option (some (.bool true))]) =
      some ⟨[.RecordValue [1, 2, 3], .PrimU32 7, .PrimString "hi",
        .OptionValue (some 4), .PrimBool true]⟩ ∧
    (⟨[.RecordValue [1, 2, 3], .PrimU32 7, .PrimString "hi",
        .OptionValue (some 4), .PrimBool true]⟩ : WitValue).nodes.length = 5 ∧
    witValueToValue ⟨[.RecordValue [1, 2, 3], .PrimU32 7, .PrimString "hi",
        .OptionValue (some 4), .PrimBool true]⟩ =
      some (.record [.u32 7, .string "hi", .option (some (.bool true))]) :=
  ⟨by rfl, by rfl, by rfl⟩

/-- Claim C9: encoding `Result(Err(None))` (unit failure) yields exactly one
node and decodes back to `Result(Err(None))`; likewise `Option(None)`
round-trips to the absent option — each a unit arm distinct from any
present-payload encoding. -/
theorem claim_example_unit_arms :
    valueToWitValue (.result false none) = some ⟨[.ResultValue false none]⟩ ∧
    witValueToValue ⟨[.ResultValue false none]⟩ = some (.result false none) ∧
    valueToWitValue (.option none) = some ⟨[.OptionValue none]⟩ ∧
    witValueToValue ⟨[.OptionValue none]⟩ = some (.option none) :=
  ⟨by rfl, by rfl, by rfl, by rfl⟩

/-- Claim C10: on every non-empty `WitValue` satisfying the forward-reference
invariant, decoding terminates with a value: every recursive call of
`build_tree` moves to a strictly larger index bounded by the sequence length,
so the sequence length is sufficient fuel and the fuel bound is never hit. -/
theorem claim_decode_terminates (w : WitValue) (h1 : validForward w.nodes = true)
    (h2 : w.nodes ≠ []) : (witValueToValue w).isSome = true := by
  have hvf := validForward_spec w.nodes h1
  have hlen : 0 < w.nodes.length := List.length_pos.mpr h2
  have hs := decode_terminates_aux w.nodes hvf w.nodes.length 0 (by omega)
    (by simpa using hlen) (by simp)
  unfold witValueToValue
  rw [if_neg (by simpa [List.isEmpty_iff] using h2)]
  exact hs

theorem claim_decode_terminates_witness :
    (witValueToValue ⟨[.OptionValue (some 1), .PrimBool true]⟩).isSome = true :=
  claim_decode_terminates ⟨[.OptionValue (some 1), .PrimBool true]⟩
    (by rfl) (by simp)
